import Mathlib

/-!
Verification development for the EEG data-processing pipeline
(annotation-driven segmentation, fixed-duration block splitting,
3-sigma outlier masking with interpolation, windowed artifact
correction, min-max normalisation and the HDF5 aggregate store).

Times, sample values and thresholds are modelled as exact rationals
(`ℚ`); the Python code computes with IEEE doubles, but every property
below concerns the algorithmic behaviour of the code, not float
rounding.  Strings are modelled as Lean `String`s ( UTF-8, like
Python ).  Fallible code returns `Except`.
-/

namespace EDFProc

/-! ### Generic list helpers (substring search, trimming, min/max) -/

/-- `leadsWith p l` is true when `p` is an initial run of `l`
(character-list version of Python's prefix test used for substring search). -/
def leadsWith : List Char → List Char → Bool
  | [], _ => true
  | _ :: _, [] => false
  | p :: ps, c :: cs => p = c && leadsWith ps cs

/-- `containsSub p l`: `p` occurs contiguously inside `l`
(Python's `p in l` for strings). -/
def containsSub (p : List Char) : List Char → Bool
  | [] => leadsWith p []
  | c :: cs => leadsWith p (c :: cs) || containsSub p cs

/-- Python `p in s` on strings. -/
def substrOf (p s : String) : Bool := containsSub p.data s.data

/-- Whitespace as stripped by Python's `str.strip()` (the characters that
occur in this repository's data). -/
def isSpaceChar (c : Char) : Bool := c = ' ' || c = '\t' || c = '\n' || c = '\r'

/-- Python `str.strip()`: drop whitespace from both ends. -/
def trimChars (l : List Char) : List Char :=
  ((l.dropWhile isSpaceChar).reverse.dropWhile isSpaceChar).reverse

/-- Minimum of a list of rationals (`numpy.min`; 0 on the empty list,
which never occurs in the code's use sites). -/
def qmin : List ℚ → ℚ
  | [] => 0
  | x :: xs => xs.foldl min x

/-- Maximum of a list of rationals (`numpy.max`; 0 on the empty list). -/
def qmax : List ℚ → ℚ
  | [] => 0
  | x :: xs => xs.foldl max x

/-! ### `clean_event_name` (EdfSegmentor.py lines 90-102, block_split.py 63-75) -/

/-- After a bracket opener, skip to just past the first matching closer
(the non-greedy regex `\[.*?\]`); `none` when no closer exists, in which
case the regex does not match at this opener. -/
def findAfterClose (close : Char) : List Char → Option (List Char)
  | [] => none
  | c :: rest => if c = close then some rest else findAfterClose close rest

/-- One left-to-right pass of `re.sub(r"\[.*?\]|\(.*?\)", "", name)`:
delete every bracketed / parenthesised run (opener to nearest closer);
an opener with no closer is kept literally and scanning resumes after it.
The fuel argument is initialised to the list length, which always
suffices because every recursive call consumes at least one character. -/
def stripBracketedAux : Nat → List Char → List Char
  | 0, l => l
  | _ + 1, [] => []
  | fuel + 1, c :: rest =>
    if c = '[' then
      match findAfterClose ']' rest with
      | some rest2 => stripBracketedAux fuel rest2
      | none => c :: stripBracketedAux fuel rest
    else if c = '(' then
      match findAfterClose ')' rest with
      | some rest2 => stripBracketedAux fuel rest2
      | none => c :: stripBracketedAux fuel rest
    else c :: stripBracketedAux fuel rest

/-- `re.sub(r"\[.*?\]|\(.*?\)", "", name).strip()` — the cleaned form
computed at the top of `clean_event_name`. -/
def cleaned_form (name : String) : String :=
  String.mk (trimChars (stripBracketedAux name.data.length name.data))

/-- `EdfSegmentor.TRANSLATIONS` — insertion-ordered, as iterated by
`for ru_name, en_name in TRANSLATIONS.items()`. -/
def TRANSLATIONS : List (String × String) :=
  [("Фоновая запись", "Baseline"),
   ("Открывание глаз", "EyesOpen"),
   ("Закрывание глаз", "EyesClosed"),
   ("Без стимуляции", "AfterStim"),
   ("Фотостимуляция", "PhoticStim"),
   ("После фотостимуляции", "PostPhotic"),
   ("Встроенный фотостимулятор", "Photic"),
   ("Встроенный слуховой стимулятор", "Auditory"),
   ("Остановка стимуляции", "AfterStim"),
   ("Гипервентиляция", "Hypervent"),
   ("После гипервентиляции", "PostHypervent"),
   ("Бодрствование", "Awake")]

/-- `EdfSegmentor.EXCLUDED_NAMES` (a Python set; only membership is used). -/
def EXCLUDED_NAMES : List String :=
  ["stimFlash",
   "stimAudio",
   "Артефакт",
   "Начало печати",
   "Окончание печати",
   "Эпилептиформная активность",
   "Комплекс \"острая волна - медленная волна\"",
   "Множественные спайки и острые волны",
   "Разрыв записи"]

/-- The translation loop of `clean_event_name`: first table entry whose
Russian phrase is a substring of the cleaned name wins; otherwise the
cleaned name passes through unchanged. -/
def translate : List (String × String) → String → String
  | [], cleaned => cleaned
  | (ru, en) :: rest, cleaned =>
    if substrOf ru cleaned then en else translate rest cleaned

/-- `EdfSegmentor.clean_event_name` — `none` models Python's `None`. -/
def clean_event_name (name : String) : Option String :=
  let cleaned := cleaned_form name
  if EXCLUDED_NAMES.contains cleaned || EXCLUDED_NAMES.contains name then none
  else some (translate TRANSLATIONS cleaned)

/-! ### Time-format helpers (EdfSegmentor.py lines 79-88) -/

/-- Python's `%` on rationals with a positive modulus: `a - b * (a // b)`. -/
def pyMod (a b : ℚ) : ℚ := a - b * ⌊a / b⌋

/-- `seconds_to_min_sec_ms`, returning the `(minutes, seconds,
milliseconds)` triple that the f-string `f"{minutes:02}:{secs:02}.{milliseconds:03}"`
renders; the zero-padded decimal rendering is injective and
`time_str_to_seconds`'s `split`/`int` parsing recovers exactly this triple. -/
def seconds_to_min_sec_ms (s : ℚ) : ℕ × ℕ × ℕ :=
  ((⌊s / 60⌋).toNat, (⌊pyMod s 60⌋).toNat, (⌊pyMod s 1 * 1000⌋).toNat)

/-- `time_str_to_seconds` applied to a parsed `MM:SS.mmm` triple:
`int(minutes) * 60 + int(seconds) + int(milliseconds) / 1000`. -/
def time_str_to_seconds (t : ℕ × ℕ × ℕ) : ℚ :=
  (t.1 : ℚ) * 60 + (t.2.1 : ℚ) + (t.2.2 : ℚ) / 1000

/-! ### The Annotation Segmenter (EdfSegmentor.create_block_csv, lines 113-146) -/

/-- One event marker: onset (seconds) and raw description text. -/
structure Ann where
  onset : ℚ
  desc : String
deriving DecidableEq, Repr

/-- A produced segment: `(canonical name, start seconds, duration seconds)`. -/
abbrev Seg := String × ℚ × ℚ

/-- The inner `while j < len(descriptions)` scan of `create_block_csv`:
we are inside a segment named `label` that began at `start`; excluded
events are passed over; the first non-excluded event both ends the open
segment and begins the next one (`i = j`); if none remains the open
segment ends at `total_duration`. -/
def blocks_scan (label : String) (start : ℚ) : List Ann → ℚ → List Seg
  | [], total_duration => [(label, start, total_duration - start)]
  | b :: rest, total_duration =>
    match clean_event_name b.desc with
    | none => blocks_scan label start rest total_duration
    | some l2 =>
      (label, start, b.onset - start) :: blocks_scan l2 b.onset rest total_duration

/-- The `blocks` list computed by `EdfSegmentor.create_block_csv` (and
identically by `block_split.create_block_csvs`): the outer `while i <
len(descriptions)` loop skips excluded events until the first
non-excluded one opens a segment. -/
def create_block_csv : List Ann → ℚ → List Seg
  | [], _ => []
  | a :: rest, total_duration =>
    match clean_event_name a.desc with
    | none => create_block_csv rest total_duration
    | some label => blocks_scan label a.onset rest total_duration

/-! ### The Block Splitter (EdfSegmentor.split_edf_into_subblocks, lines 248-307) -/

/-- The `while current_time + block_duration <= total_duration` loop:
each iteration emits the block `(block_index, tmin, tmax)` cropped by
`raw.copy().crop(tmin=current_time, tmax=next_time)` and advances
`current_time` by the (epsilon-reduced) block duration.  The loop
advances by a fixed positive step, so the fuel chosen by
`split_edf_into_subblocks` is never exhausted. -/
def splitLoop : ℕ → ℚ → ℕ → ℚ → ℚ → List (ℕ × ℚ × ℚ)
  | 0, _, _, _, _ => []
  | fuel + 1, current_time, block_index, block_duration, total_duration =>
    if current_time + block_duration ≤ total_duration then
      (block_index, current_time, current_time + block_duration) ::
        splitLoop fuel (current_time + block_duration) (block_index + 1)
          block_duration total_duration
    else []

/-- `split_edf_into_subblocks` for one file: the caller
(`split_edfs_into_subblocks`) first subtracts the 2 ms epsilon from the
target duration; blocks are numbered from 1.  `block_split.py`'s variant
(`while current_time < total_duration` with a too-short check and
`break`) emits exactly the same list. -/
def split_edf_into_subblocks (total_duration block_duration : ℚ) : List (ℕ × ℚ × ℚ) :=
  let d := block_duration - 2 / 1000
  splitLoop (⌊total_duration / d⌋₊ + 1) 0 1 d total_duration

/-! ### The Outlier Masker (edf_filters.sigma_3_filter, lines 36-58;
     same code in atar_with_3_sigma.py lines 62-75) -/

/-- `np.interp(t, xp, fp)` for one query point, where the control points
are paired as `(xp i, fp i)` with `xp` non-decreasing: clamp below the
first and above the last control point, linear interpolation between
bracketing points. -/
def npInterp (t : ℚ) : List (ℚ × ℚ) → ℚ
  | [] => 0
  | [(_, y)] => y
  | (x1, y1) :: (x2, y2) :: rest =>
    if t ≤ x1 then y1
    else if t ≤ x2 then y1 + (y2 - y1) * (t - x1) / (x2 - x1)
    else npInterp t ((x2, y2) :: rest)

/-- `np.mean(data, axis=1)` for one channel. -/
def chMean (xs : List ℚ) : ℚ := xs.sum / xs.length

/-- `np.std(data, axis=1) ** 2`: the population variance.  The source
compares `np.abs(data - mean) > 3 * std`; both sides are non-negative,
so the comparison is carried out on squares to stay inside `ℚ`. -/
def chVar (xs : List ℚ) : ℚ := (xs.map (fun x => (x - chMean xs) ^ 2)).sum / xs.length

/-- The artifact mask `np.abs(data - mean) > 3 * std` at sample `j`
(rendered on squares: `(x - mean)^2 > 9 * var`). -/
def sigma3MaskAt (xs : List ℚ) (j : ℕ) : Bool :=
  decide (9 * chVar xs < (xs.getD j 0 - chMean xs) ^ 2)

/-- `good_idx = np.where(~mask[ch])[0]` — unflagged sample indices, ascending. -/
def goodIdx (xs : List ℚ) : List ℕ :=
  (List.range xs.length).filter (fun j => !sigma3MaskAt xs j)

/-- `data[ch, good_idx]` — the channel values at unflagged positions. -/
def goodVals (xs : List ℚ) : List ℚ := (goodIdx xs).map (fun i => xs.getD i 0)

/-- One channel of `sigma_3_filter`: flagged samples are first replaced
by the channel mean (`data[mask] = mean`), then, when at least two
unflagged samples exist, every flagged position is overwritten by
`np.interp(bad_idx, good_idx, data[ch, good_idx])`. -/
def sigma3Channel (xs : List ℚ) : List ℚ :=
  let n := xs.length
  let mean := chMean xs
  let stage1 := (List.range n).map (fun j => if sigma3MaskAt xs j then mean else xs.getD j 0)
  if 2 ≤ (goodIdx xs).length then
    let pts := (goodIdx xs).map (fun (i : ℕ) => ((i : ℚ), stage1.getD i 0))
    (List.range n).map (fun j =>
      if sigma3MaskAt xs j then npInterp (j : ℚ) pts else stage1.getD j 0)
  else stage1

/-- The per-segment body of `sigma_3_filter`: each channel is processed
independently. -/
def sigma_3_filter (data : List (List ℚ)) : List (List ℚ) := data.map sigma3Channel

/-! ### The Windowed Artifact Corrector (atar_with_3_sigma.py lines 77-107) -/

/-- `np.max(np.abs(l))` (0 on the empty list; windows are non-empty). -/
def maxAbs (l : List ℚ) : ℚ := qmax (l.map (fun x => |x|))

/-- One channel's flag: `np.max(np.abs(segment_uV)) > threshold_uV` with
`segment_uV = data[ch, start:end] * 1e6` and `threshold_uV = 100`. -/
def channel_flagged (ch : List ℚ) : Bool :=
  decide ((100 : ℚ) < maxAbs (ch.map (fun x => x * 1000000)))

/-- `sum(artifact_flags)` — Python counts `True`s. -/
def countTrue (l : List Bool) : ℕ := (l.map (fun b => if b then 1 else 0)).sum

/-- `ATAR(x * 1e6, ...) / 1e6` for one channel; the wavelet-denoising
primitive itself is an external collaborator, passed in as an opaque
function. -/
def atar_denoise_window (denoise : List ℚ → List ℚ) (ch : List ℚ) : List ℚ :=
  (denoise (ch.map (fun x => x * 1000000))).map (fun y => y / 1000000)

/-- One window of the corrector loop: flag every channel whose peak
absolute amplitude in the window exceeds 100 µV; when the count of
flagged channels reaches `min_channels_with_artifact = int(0.8 *
data.shape[0])` the window is a global artifact window and every
channel (flagged or not) is replaced by the denoising primitive's
output; otherwise the window is left untouched. -/
def atar_window_step (denoise : List ℚ → List ℚ) (win : List (List ℚ)) : List (List ℚ) :=
  let artifact_flags := win.map channel_flagged
  let min_channels_with_artifact := (⌊(8 / 10 : ℚ) * win.length⌋).toNat
  if min_channels_with_artifact ≤ countTrue artifact_flags then
    win.map (atar_denoise_window denoise)
  else win

/-! ### Min-max normalisation (min_max_normalisation.py lines 5-37) -/

/-- The per-channel loop of `min_max_normalisation`: a channel whose
dynamic range `max - min` is zero raises `ZeroDivisionError` (modelled
as `Except.error`); otherwise the channel is rescaled to `[0, 1]`.
Channel extraction, the ECG-channel drop and re-add, and the unit
relabelling are collaborator calls outside this loop. -/
def min_max_normalisation : List (List ℚ) → Except String (List (List ℚ))
  | [] => Except.ok []
  | ch :: rest =>
    let min_val := qmin ch
    let max_val := qmax ch
    if max_val - min_val = 0 then
      Except.error "Диапазон значений канала равен нулю, нормализация невозможна."
    else
      match min_max_normalisation rest with
      | Except.error e => Except.error e
      | Except.ok t =>
        Except.ok ((ch.map (fun x => (x - min_val) / (max_val - min_val))) :: t)

/-- `true` exactly on `Except.ok` (the call returned normally). -/
def exceptIsOk {ε α : Type} : Except ε α → Bool
  | Except.ok _ => true
  | Except.error _ => false

/-! ### The Aggregate Store (make_h5.py, HDF5Manager.add_subblocks_to_hdf5,
     lines 19-77) -/

/-- One per-recording group inside a `(diagnosis, block_type)` HDF5 file:
the resizable block array `data`, the scalar metadata attributes and the
deduplicated `source_files` array.  Source files are modelled as exact
strings (the on-disk `S100` encoding is a storage-collaborator detail). -/
structure PatientGroup where
  pdata : List (List (List ℚ))
  gender : String
  age_cat : String
  source_files : List String
deriving Repr

/-- One `(diagnosis, block_type)` HDF5 container file: named groups plus
file-level attributes. -/
structure H5File where
  groups : List (String × PatientGroup)
  attrs : List (String × String)
deriving Repr

/-- `hdf_file.attrs[key] = value` — overwrite or create one attribute. -/
def setAttr : List (String × String) → String → String → List (String × String)
  | [], k, v => [(k, v)]
  | (k0, v0) :: rest, k, v =>
    if k0 = k then (k, v) :: rest else (k0, v0) :: setAttr rest k v

/-- The `for key, value in global_attributes.items()` loop: every
file-level attribute is overwritten unconditionally. -/
def writeAttrs (attrs gattrs : List (String × String)) : List (String × String) :=
  gattrs.foldl (fun acc kv => setAttr acc kv.1 kv.2) attrs

/-- `HDF5Manager.add_subblocks_to_hdf5`: create the patient group on
first contact (`data` holds the incoming blocks, `source_files =
[source_file]`); on later calls concatenate the incoming blocks onto the
tail of `data` and append `source_file` to `source_files` only when it
is not already present. -/
def add_subblocks_to_hdf5 (file : H5File) (patient_id : String)
    (d : List (List (List ℚ))) (gender age_cat source_file : String)
    (global_attributes : List (String × String)) : H5File :=
  let groups :=
    match file.groups.lookup patient_id with
    | none => file.groups ++ [(patient_id, ⟨d, gender, age_cat, [source_file]⟩)]
    | some _ =>
      file.groups.map (fun kg =>
        if kg.1 = patient_id then
          (kg.1,
           { kg.2 with
             pdata := kg.2.pdata ++ d,
             source_files :=
               if kg.2.source_files.contains source_file then kg.2.source_files
               else kg.2.source_files ++ [source_file] })
        else kg)
  { groups := groups, attrs := writeAttrs file.attrs global_attributes }

/-- The block array of one patient group (empty when the group is absent). -/
def dataOf (file : H5File) (patient_id : String) : List (List (List ℚ)) :=
  ((file.groups.lookup patient_id).map PatientGroup.pdata).getD []

/-- The provenance array of one patient group (empty when absent). -/
def sourcesOf (file : H5File) (patient_id : String) : List String :=
  ((file.groups.lookup patient_id).map PatientGroup.source_files).getD []

/-! ## Claims -/

/-- **C10.** `clean_event_name` returns `None` (the event is skipped) if
and only if the bracket-stripped form or the raw text is a member of the
exclusion set; and an event consisting only of bracketed text is not
skipped — its canonical label is the empty string
(`clean_event_name("[Artifact]") = ""`). -/
theorem clean_event_name_none_iff :
    (∀ name : String,
        clean_event_name name = none ↔
          cleaned_form name ∈ EXCLUDED_NAMES ∨ name ∈ EXCLUDED_NAMES) ∧
    clean_event_name "[Artifact]" = some "" := by
  refine ⟨fun name => ?_, by decide⟩
  unfold clean_event_name
  by_cases h : (EXCLUDED_NAMES.contains (cleaned_form name) || EXCLUDED_NAMES.contains name) = true
  · rw [if_pos h]
    refine iff_of_true rfl ?_
    simpa using h
  · rw [if_neg h]
    refine iff_of_false (by simp) ?_
    simpa using h

/-- **C8.** The min-max normalisation loop raises (returns `Except.error`)
exactly when some channel has zero dynamic range (`max = min`), and
returns normally when every channel has nonzero range — there is no
silent fallback. -/
theorem min_max_normalisation_error_iff (chans : List (List ℚ)) :
    exceptIsOk (min_max_normalisation chans) = false ↔
      ∃ ch ∈ chans, qmax ch = qmin ch := by
  induction chans with
  | nil => simp [min_max_normalisation, exceptIsOk]
  | cons ch rest ih =>
    by_cases h : qmax ch - qmin ch = 0
    · simp only [min_max_normalisation, if_pos h, exceptIsOk]
      have : qmax ch = qmin ch := by linarith
      simp [this]
    · cases hrec : min_max_normalisation rest with
      | error e =>
        simp only [min_max_normalisation, if_neg h, hrec, exceptIsOk]
        rw [hrec] at ih
        simp only [exceptIsOk] at ih
        have hne : ¬ qmax ch = qmin ch := fun hc => h (by rw [hc, sub_self])
        simpa [hne] using ih
      | ok t =>
        simp only [min_max_normalisation, if_neg h, hrec, exceptIsOk]
        rw [hrec] at ih
        simp only [exceptIsOk] at ih
        have hne : ¬ qmax ch = qmin ch := fun hc => h (by rw [hc, sub_self])
        simpa [hne] using ih

/-- **C9.** For every non-negative duration `s`, converting to the
`MM:SS.mmm` text form and parsing back never increases the value, loses
strictly less than one millisecond, and is exact on millisecond-aligned
inputs: the composition equals `⌊1000 s⌋ / 1000`. -/
theorem time_format_roundtrip (q : ℚ) (hq : 0 ≤ q) :
    time_str_to_seconds (seconds_to_min_sec_ms q) ≤ q ∧
    q - time_str_to_seconds (seconds_to_min_sec_ms q) < 1 / 1000 ∧
    ∀ n : ℕ, q = n / 1000 → time_str_to_seconds (seconds_to_min_sec_ms q) = q := by
  have hfloor60 : ((⌊q / 60⌋ : ℤ) : ℚ) ≤ q / 60 := Int.floor_le (q / 60)
  have hm : (0 : ℤ) ≤ ⌊q / 60⌋ := Int.floor_nonneg.2 (by positivity)
  have hmod60 : pyMod q 60 = q - ((60 * ⌊q / 60⌋ : ℤ) : ℚ) := by
    unfold pyMod; push_cast; ring
  have hs_floor : ⌊pyMod q 60⌋ = ⌊q⌋ - 60 * ⌊q / 60⌋ := by
    rw [hmod60, Int.floor_sub_int]
  have hs_nonneg : (0 : ℤ) ≤ ⌊pyMod q 60⌋ := by
    rw [hmod60]
    refine Int.floor_nonneg.2 ?_
    push_cast
    linarith
  have hmod1 : pyMod q 1 * 1000 = 1000 * q - ((1000 * ⌊q⌋ : ℤ) : ℚ) := by
    unfold pyMod
    rw [div_one]
    push_cast
    ring
  have hms_floor : ⌊pyMod q 1 * 1000⌋ = ⌊1000 * q⌋ - 1000 * ⌊q⌋ := by
    rw [hmod1, Int.floor_sub_int]
  have hms_nonneg : (0 : ℤ) ≤ ⌊pyMod q 1 * 1000⌋ := by
    rw [hmod1]
    refine Int.floor_nonneg.2 ?_
    have : ((⌊q⌋ : ℤ) : ℚ) ≤ q := Int.floor_le q
    push_cast
    linarith
  have key : time_str_to_seconds (seconds_to_min_sec_ms q) = ((⌊1000 * q⌋ : ℤ) : ℚ) / 1000 := by
    have c1 : ((⌊q / 60⌋.toNat : ℕ) : ℚ) = ((⌊q / 60⌋ : ℤ) : ℚ) := by
      exact_mod_cast congrArg (fun z : ℤ => (z : ℚ)) (Int.toNat_of_nonneg hm)
    have c2 : ((⌊pyMod q 60⌋.toNat : ℕ) : ℚ) = ((⌊pyMod q 60⌋ : ℤ) : ℚ) := by
      exact_mod_cast congrArg (fun z : ℤ => (z : ℚ)) (Int.toNat_of_nonneg hs_nonneg)
    have c3 : ((⌊pyMod q 1 * 1000⌋.toNat : ℕ) : ℚ) = ((⌊pyMod q 1 * 1000⌋ : ℤ) : ℚ) := by
      exact_mod_cast congrArg (fun z : ℤ => (z : ℚ)) (Int.toNat_of_nonneg hms_nonneg)
    unfold seconds_to_min_sec_ms time_str_to_seconds
    rw [c1, c2, c3, hs_floor, hms_floor]
    push_cast
    ring
  have hle : ((⌊1000 * q⌋ : ℤ) : ℚ) ≤ 1000 * q := Int.floor_le _
  have hlt : 1000 * q < ((⌊1000 * q⌋ : ℤ) : ℚ) + 1 := Int.lt_floor_add_one _
  refine ⟨by rw [key]; linarith, by rw [key]; linarith, fun n hn => ?_⟩
  have : (1000 : ℚ) * q = (n : ℚ) := by rw [hn]; field_simp
  rw [key, this, Int.floor_natCast]
  rw [hn]
  push_cast
  ring

/-- Witness for C9 at `s = 12.3456`. -/
theorem time_format_roundtrip_witness :
    time_str_to_seconds (seconds_to_min_sec_ms (123456 / 10000)) ≤ 123456 / 10000 ∧
    (123456 / 10000 : ℚ) - time_str_to_seconds (seconds_to_min_sec_ms (123456 / 10000)) < 1 / 1000 ∧
    ∀ n : ℕ, (123456 / 10000 : ℚ) = n / 1000 →
      time_str_to_seconds (seconds_to_min_sec_ms (123456 / 10000)) = 123456 / 10000 :=
  time_format_roundtrip (123456 / 10000) (by norm_num)

/-- Closed form of the splitting loop: with a positive step and enough
fuel it emits one block per whole step that fits between `cur` and
`total_duration`, consecutively numbered from `idx`. -/
theorem splitLoop_eq (d T : ℚ) (hd : 0 < d) :
    ∀ (fuel : ℕ) (cur : ℚ) (idx : ℕ), ⌊(T - cur) / d⌋₊ ≤ fuel →
      splitLoop fuel cur idx d T =
        (List.range ⌊(T - cur) / d⌋₊).map
          (fun (k : ℕ) => (idx + k, cur + (k : ℚ) * d, cur + (k : ℚ) * d + d)) := by
  intro fuel
  induction fuel with
  | zero =>
    intro cur idx h
    have h0 : ⌊(T - cur) / d⌋₊ = 0 := Nat.le_zero.1 h
    rw [h0]
    rfl
  | succ fuel ih =>
    intro cur idx h
    by_cases hc : cur + d ≤ T
    · have h1 : (1 : ℚ) ≤ (T - cur) / d := by
        rw [le_div_iff₀ hd]
        linarith
      have hM1 : 1 ≤ ⌊(T - cur) / d⌋₊ := Nat.le_floor (by exact_mod_cast h1)
      have hstep : (T - (cur + d)) / d = (T - cur) / d - 1 := by
        field_simp
        ring
      obtain ⟨m, hm⟩ : ∃ m, ⌊(T - cur) / d⌋₊ = m + 1 :=
        ⟨⌊(T - cur) / d⌋₊ - 1, by omega⟩
      have hM : ⌊(T - (cur + d)) / d⌋₊ = m := by
        rw [hstep, Nat.floor_sub_one, hm]
        omega
      have hfuel' : ⌊(T - (cur + d)) / d⌋₊ ≤ fuel := by omega
      have hLHS : splitLoop (fuel + 1) cur idx d T =
          (idx, cur, cur + d) :: splitLoop fuel (cur + d) (idx + 1) d T := by
        simp [splitLoop, hc]
      rw [hLHS, ih (cur + d) (idx + 1) hfuel', hM, hm, List.range_succ_eq_map]
      simp only [List.map_cons, List.map_map]
      refine congrArg₂ List.cons ?_ ?_
      · norm_num
      · refine List.map_congr_left (fun k _ => ?_)
        simp only [Function.comp_apply]
        refine Prod.ext (by omega) (Prod.ext ?_ ?_) <;> (push_cast; ring)
    · have hM0 : ⌊(T - cur) / d⌋₊ = 0 := by
        refine Nat.floor_eq_zero.2 ?_
        rw [div_lt_one hd]
        linarith
      rw [hM0]
      simp [splitLoop, hc]

/-- **C2.** For a segment of duration `total_duration` and target block
duration `d > 2 ms`, the Block Splitter emits exactly
`⌊total_duration / (d - 0.002)⌋` blocks, numbered consecutively from 1
in emission order, block `k` spanning
`[k·(d - 0.002), (k+1)·(d - 0.002)]` — a gapless, non-overlapping
prefix of the segment starting at offset 0 — and the trailing remainder
(strictly shorter than `d - 0.002` seconds) is discarded. -/
theorem block_splitter_blocks (total_duration block_duration : ℚ)
    (hd : 2 / 1000 < block_duration) :
    split_edf_into_subblocks total_duration block_duration =
      (List.range ⌊total_duration / (block_duration - 2 / 1000)⌋₊).map
        (fun (k : ℕ) => (1 + k, (k : ℚ) * (block_duration - 2 / 1000),
                   (k : ℚ) * (block_duration - 2 / 1000) + (block_duration - 2 / 1000))) ∧
    total_duration -
        ⌊total_duration / (block_duration - 2 / 1000)⌋₊ * (block_duration - 2 / 1000) <
      block_duration - 2 / 1000 := by
  set d := block_duration - 2 / 1000 with hdef
  have hd0 : 0 < d := by rw [hdef]; linarith
  constructor
  · unfold split_edf_into_subblocks
    rw [← hdef]
    have := splitLoop_eq d total_duration hd0 (⌊total_duration / d⌋₊ + 1) 0 1
      (by rw [sub_zero]; omega)
    rw [sub_zero] at this
    rw [this]
    refine List.map_congr_left (fun k _ => ?_)
    norm_num
  · have hq : total_duration / d < ⌊total_duration / d⌋₊ + 1 := Nat.lt_floor_add_one _
    have : total_duration < (⌊total_duration / d⌋₊ + 1) * d := by
      have := (div_lt_iff₀ hd0).1 hq
      linarith
    linarith [this]

/-- Witness for C2 at the spec's §8 scenario: block duration 5 s,
segment length 12.3 s. -/
theorem block_splitter_blocks_witness :
    split_edf_into_subblocks (123 / 10) 5 =
      (List.range ⌊(123 / 10 : ℚ) / (5 - 2 / 1000)⌋₊).map
        (fun (k : ℕ) => (1 + k, (k : ℚ) * (5 - 2 / 1000),
                   (k : ℚ) * (5 - 2 / 1000) + (5 - 2 / 1000))) ∧
    (123 / 10 : ℚ) - ⌊(123 / 10 : ℚ) / (5 - 2 / 1000)⌋₊ * (5 - 2 / 1000) < 5 - 2 / 1000 :=
  block_splitter_blocks (123 / 10) 5 (by norm_num)

/-! ### Helper lemmas for the Outlier Masker -/

theorem getD_range_map (n j : ℕ) (f : ℕ → ℚ) (h : j < n) :
    ((List.range n).map f).getD j 0 = f j := by
  rw [List.getD_eq_getElem _ _ (by simpa using h)]
  simp

theorem foldl_min_le_init (l : List ℚ) : ∀ x : ℚ, l.foldl min x ≤ x := by
  induction l with
  | nil => intro x; exact le_refl x
  | cons a l ih =>
    intro x
    calc (a :: l).foldl min x = l.foldl min (min x a) := rfl
    _ ≤ min x a := ih (min x a)
    _ ≤ x := min_le_left x a

theorem foldl_min_le_mem (l : List ℚ) : ∀ (x y : ℚ), y ∈ l → l.foldl min x ≤ y := by
  induction l with
  | nil => intro x y hy; cases hy
  | cons a l ih =>
    intro x y hy
    rcases List.mem_cons.1 hy with rfl | hy
    · calc (y :: l).foldl min x = l.foldl min (min x y) := rfl
      _ ≤ min x y := foldl_min_le_init l (min x y)
      _ ≤ y := min_le_right x y
    · exact ih (min x a) y hy

theorem qmin_le_mem (l : List ℚ) (y : ℚ) (hy : y ∈ l) : qmin l ≤ y := by
  cases l with
  | nil => cases hy
  | cons x xs =>
    rcases List.mem_cons.1 hy with rfl | hy
    · exact foldl_min_le_init xs y
    · exact foldl_min_le_mem xs x y hy

theorem init_le_foldl_max (l : List ℚ) : ∀ x : ℚ, x ≤ l.foldl max x := by
  induction l with
  | nil => intro x; exact le_refl x
  | cons a l ih =>
    intro x
    calc x ≤ max x a := le_max_left x a
    _ ≤ l.foldl max (max x a) := ih (max x a)
    _ = (a :: l).foldl max x := rfl

theorem mem_le_foldl_max (l : List ℚ) : ∀ (x y : ℚ), y ∈ l → y ≤ l.foldl max x := by
  induction l with
  | nil => intro x y hy; cases hy
  | cons a l ih =>
    intro x y hy
    rcases List.mem_cons.1 hy with rfl | hy
    · calc y ≤ max x y := le_max_right x y
      _ ≤ l.foldl max (max x y) := init_le_foldl_max l (max x y)
      _ = (y :: l).foldl max x := rfl
    · exact ih (max x a) y hy

theorem mem_le_qmax (l : List ℚ) (y : ℚ) (hy : y ∈ l) : y ≤ qmax l := by
  cases l with
  | nil => cases hy
  | cons x xs =>
    rcases List.mem_cons.1 hy with rfl | hy
    · exact init_le_foldl_max xs y
    · exact mem_le_foldl_max xs x y hy

/-- `np.interp` never leaves the interval spanned by its control-point
values, provided the control abscissae are non-decreasing. -/
theorem npInterp_mem (lo hi : ℚ) :
    ∀ (pts : List (ℚ × ℚ)) (t : ℚ), pts ≠ [] →
      List.Chain' (fun p q : ℚ × ℚ => p.1 ≤ q.1) pts →
      (∀ p ∈ pts, lo ≤ p.2 ∧ p.2 ≤ hi) →
      lo ≤ npInterp t pts ∧ npInterp t pts ≤ hi := by
  intro pts
  induction pts with
  | nil => intro t h; exact absurd rfl h
  | cons p rest ih =>
    intro t _ hchain hbd
    obtain ⟨x1, y1⟩ := p
    cases rest with
    | nil =>
      have : npInterp t [(x1, y1)] = y1 := rfl
      rw [this]
      exact hbd (x1, y1) (List.mem_singleton.2 rfl)
    | cons q rest' =>
      obtain ⟨x2, y2⟩ := q
      have hx12 : x1 ≤ x2 := (List.chain'_cons.1 hchain).1
      have hy1 := hbd (x1, y1) (List.mem_cons_self _ _)
      have hy2 := hbd (x2, y2) (List.mem_cons.2 (Or.inr (List.mem_cons_self _ _)))
      by_cases ht1 : t ≤ x1
      · have : npInterp t ((x1, y1) :: (x2, y2) :: rest') = y1 := by
          simp [npInterp, ht1]
        rw [this]
        exact hy1
      · by_cases ht2 : t ≤ x2
        · have hval : npInterp t ((x1, y1) :: (x2, y2) :: rest') =
              y1 + (y2 - y1) * ((t - x1) / (x2 - x1)) := by
            simp [npInterp, ht1, ht2]
            ring
          have hx : x1 < x2 := lt_of_lt_of_le (not_le.1 ht1) ht2
          have hw0 : 0 ≤ (t - x1) / (x2 - x1) :=
            div_nonneg (by linarith [not_le.1 ht1]) (by linarith)
          have hw1 : (t - x1) / (x2 - x1) ≤ 1 :=
            (div_le_one (by linarith)).2 (by linarith)
          rw [hval]
          constructor <;> nlinarith [hy1.1, hy1.2, hy2.1, hy2.2]
        · have : npInterp t ((x1, y1) :: (x2, y2) :: rest') =
              npInterp t ((x2, y2) :: rest') := by
            simp [npInterp, ht1, ht2]
          rw [this]
          exact ih t (List.cons_ne_nil _ _) (List.chain'_cons.1 hchain).2
            (fun p hp => hbd p (List.mem_cons.2 (Or.inr hp)))

theorem sigma3Channel_nil : sigma3Channel [] = [] := by
  simp [sigma3Channel, goodIdx]

theorem sigma_3_filter_getD (data : List (List ℚ)) (i : ℕ) :
    (sigma_3_filter data).getD i [] = sigma3Channel (data.getD i []) := by
  by_cases h : i < data.length
  · rw [List.getD_eq_getElem _ _ (by simpa [sigma_3_filter] using h),
      List.getD_eq_getElem _ _ h]
    simp [sigma_3_filter]
  · rw [List.getD_eq_default _ _ (by simpa [sigma_3_filter] using Nat.le_of_not_lt h),
      List.getD_eq_default _ _ (Nat.le_of_not_lt h), sigma3Channel_nil]

theorem sigma3Channel_length (xs : List ℚ) : (sigma3Channel xs).length = xs.length := by
  unfold sigma3Channel
  by_cases h : 2 ≤ (goodIdx xs).length <;> simp [h]

theorem sigma3Channel_frame (xs : List ℚ) (j : ℕ)
    (hmask : sigma3MaskAt xs j = false) (hj : j < xs.length) :
    (sigma3Channel xs).getD j 0 = xs.getD j 0 := by
  unfold sigma3Channel
  by_cases h : 2 ≤ (goodIdx xs).length <;>
    simp only [h, if_true, if_false, reduceIte] <;>
    rw [getD_range_map _ _ _ hj] <;>
    simp [hmask, List.getElem?_range, hj]

/-- **C6.** The Outlier Masker preserves the matrix shape (channel count
and every channel length), and every sample position not flagged by the
3-sigma mask keeps exactly its input value. -/
theorem sigma3_shape_frame (data : List (List ℚ)) :
    (sigma_3_filter data).length = data.length ∧
    (sigma_3_filter data).map List.length = data.map List.length ∧
    ∀ i j, sigma3MaskAt (data.getD i []) j = false → j < (data.getD i []).length →
      ((sigma_3_filter data).getD i []).getD j 0 = (data.getD i []).getD j 0 := by
  refine ⟨by simp [sigma_3_filter], ?_, ?_⟩
  · unfold sigma_3_filter
    rw [List.map_map]
    exact List.map_congr_left (fun xs _ => sigma3Channel_length xs)
  · intro i j hmask hj
    rw [sigma_3_filter_getD]
    exact sigma3Channel_frame _ _ hmask hj

/-- Witness for C6: a 1-channel, 2-sample matrix whose samples are both
unflagged; position `(0,0)` is returned bit-identically. -/
theorem sigma3_shape_frame_witness :
    sigma3MaskAt (([[1, -1]] : List (List ℚ)).getD 0 []) 0 = false ∧
    0 < (([[1, -1]] : List (List ℚ)).getD 0 []).length ∧
    ((sigma_3_filter [[1, -1]]).getD 0 []).getD 0 0 = (([[1, -1]] : List (List ℚ)).getD 0 []).getD 0 0 := by
  have hmask : sigma3MaskAt (([[1, -1]] : List (List ℚ)).getD 0 []) 0 = false := by
    simp [sigma3MaskAt, chVar, chMean]
  refine ⟨hmask, by norm_num, (sigma3_shape_frame [[1, -1]]).2.2 0 0 hmask (by norm_num)⟩

/-- **C7.** On a channel with at least two unflagged samples, every
value written at a flagged index by the interpolation step lies in the
closed interval spanned by the minimum and maximum of that channel's
unflagged sample values. -/
theorem sigma3_interp_in_range (xs : List ℚ) (j : ℕ)
    (hgood : 2 ≤ (goodIdx xs).length)
    (hmask : sigma3MaskAt xs j = true)
    (hj : j < xs.length) :
    qmin (goodVals xs) ≤ (sigma3Channel xs).getD j 0 ∧
    (sigma3Channel xs).getD j 0 ≤ qmax (goodVals xs) := by
  have hmem : ∀ i ∈ goodIdx xs, i < xs.length ∧ sigma3MaskAt xs i = false := by
    intro i hi
    unfold goodIdx at hi
    have h1 := List.of_mem_filter hi
    have h2 := List.mem_of_mem_filter hi
    exact ⟨List.mem_range.1 h2, by simpa using h1⟩
  have hstage1 : ∀ i ∈ goodIdx xs,
      ((List.range xs.length).map
        (fun k => if sigma3MaskAt xs k then chMean xs else xs.getD k 0)).getD i 0 =
        xs.getD i 0 := by
    intro i hi
    rw [getD_range_map _ _ _ (hmem i hi).1, (hmem i hi).2]
    simp
  have hval : (sigma3Channel xs).getD j 0 =
      npInterp (j : ℚ)
        ((goodIdx xs).map (fun (i : ℕ) =>
          ((i : ℚ), ((List.range xs.length).map
            (fun k => if sigma3MaskAt xs k then chMean xs else xs.getD k 0)).getD i 0))) := by
    unfold sigma3Channel
    rw [if_pos hgood, getD_range_map _ _ _ hj, hmask]
    simp
  rw [hval]
  refine npInterp_mem (qmin (goodVals xs)) (qmax (goodVals xs)) _ (j : ℚ) ?_ ?_ ?_
  · intro hnil
    have hlen := congrArg List.length hnil
    rw [List.length_map] at hlen
    simp only [List.length_nil] at hlen
    omega
  · refine List.Pairwise.chain' ?_
    refine List.Pairwise.map _ (fun a b hab => ?_)
      ((List.pairwise_lt_range _).filter _)
    show (a : ℚ) ≤ (b : ℚ)
    exact_mod_cast le_of_lt hab
  · intro p hp
    obtain ⟨i, hi, rfl⟩ := List.mem_map.1 hp
    have hv : (xs.getD i 0) ∈ goodVals xs := by
      unfold goodVals
      exact List.mem_map.2 ⟨i, hi, rfl⟩
    rw [hstage1 i hi]
    exact ⟨qmin_le_mem _ _ hv, mem_le_qmax _ _ hv⟩

/-- Witness for C7: an eleven-sample channel whose first sample is a
3-sigma outlier; it is interpolated and lands inside the range of the
ten unflagged samples. -/
theorem sigma3_interp_in_range_witness :
    2 ≤ (goodIdx [10, -1, -1, -1, -1, -1, -1, -1, -1, -1, -1]).length ∧
    sigma3MaskAt [10, -1, -1, -1, -1, -1, -1, -1, -1, -1, -1] 0 = true ∧
    0 < ([10, -1, -1, -1, -1, -1, -1, -1, -1, -1, -1] : List ℚ).length ∧
    (qmin (goodVals [10, -1, -1, -1, -1, -1, -1, -1, -1, -1, -1]) ≤
        (sigma3Channel [10, -1, -1, -1, -1, -1, -1, -1, -1, -1, -1]).getD 0 0 ∧
      (sigma3Channel [10, -1, -1, -1, -1, -1, -1, -1, -1, -1, -1]).getD 0 0 ≤
        qmax (goodVals [10, -1, -1, -1, -1, -1, -1, -1, -1, -1, -1])) := by
  have hmean : chMean [10, -1, -1, -1, -1, -1, -1, -1, -1, -1, -1] = 0 := by
    norm_num [chMean, List.sum_cons, List.sum_nil]
  have hvar : chVar [10, -1, -1, -1, -1, -1, -1, -1, -1, -1, -1] = 10 := by
    norm_num [chVar, hmean, List.sum_cons, List.sum_nil, List.map_cons, List.map_nil]
  have hm0 : sigma3MaskAt [10, -1, -1, -1, -1, -1, -1, -1, -1, -1, -1] 0 = true := by
    unfold sigma3MaskAt
    rw [hvar, hmean, show (([10, -1, -1, -1, -1, -1, -1, -1, -1, -1, -1] : List ℚ).getD 0 0) = 10 from rfl]
    norm_num
  have hmrest : ∀ j, 1 ≤ j → j ≤ 10 →
      ([10, -1, -1, -1, -1, -1, -1, -1, -1, -1, -1] : List ℚ).getD j 0 = -1 := by
    intro j h1 h2
    interval_cases j <;> rfl
  have hm : ∀ j, 1 ≤ j → j ≤ 10 →
      sigma3MaskAt [10, -1, -1, -1, -1, -1, -1, -1, -1, -1, -1] j = false := by
    intro j h1 h2
    unfold sigma3MaskAt
    rw [hvar, hmean, hmrest j h1 h2]
    norm_num
  have hgood : goodIdx [10, -1, -1, -1, -1, -1, -1, -1, -1, -1, -1] = [1, 2, 3, 4, 5, 6, 7, 8, 9, 10] := by
    unfold goodIdx
    rw [show (([10, -1, -1, -1, -1, -1, -1, -1, -1, -1, -1] : List ℚ).length) = 11 from rfl,
      show List.range 11 = [0, 1, 2, 3, 4, 5, 6, 7, 8, 9, 10] from rfl]
    simp [List.filter_cons, hm0, hm 1 (by norm_num) (by norm_num), hm 2 (by norm_num) (by norm_num),
      hm 3 (by norm_num) (by norm_num), hm 4 (by norm_num) (by norm_num),
      hm 5 (by norm_num) (by norm_num), hm 6 (by norm_num) (by norm_num),
      hm 7 (by norm_num) (by norm_num), hm 8 (by norm_num) (by norm_num),
      hm 9 (by norm_num) (by norm_num), hm 10 (by norm_num) (by norm_num)]
  refine ⟨by rw [hgood]; norm_num, hm0, by norm_num, ?_⟩
  exact sigma3_interp_in_range _ 0 (by rw [hgood]; norm_num) hm0 (by norm_num)

/-! ### Claims about the Windowed Artifact Corrector -/

/-- The number of flagged channels in a window. -/
def flaggedCount (win : List (List ℚ)) : ℕ := (win.filter channel_flagged).length

theorem countTrue_map_flagged (win : List (List ℚ)) :
    countTrue (win.map channel_flagged) = flaggedCount win := by
  induction win with
  | nil => rfl
  | cons ch rest ih =>
    have lhs : countTrue ((ch :: rest).map channel_flagged) =
        (if channel_flagged ch then 1 else 0) + countTrue (rest.map channel_flagged) := by
      unfold countTrue
      rw [List.map_cons, List.map_cons, List.sum_cons]
    rw [lhs, ih]
    unfold flaggedCount
    rw [List.filter_cons]
    cases h : channel_flagged ch
    · simp [h]
    · simp [h]
      omega

/-- **C3 (amended).** A window is treated as a global artifact window —
every channel, flagged or not, replaced by the denoising primitive's
output — exactly when the number of flagged channels reaches
`int(0.8 * channel_count)`, i.e. the *floor* of the quorum fraction
times the channel count (15 for 19 channels, not `ceil = 16`); below
that count the window is left untouched. -/
theorem atar_window_quorum (denoise : List ℚ → List ℚ) (win : List (List ℚ)) :
    ((⌊(8 / 10 : ℚ) * win.length⌋).toNat ≤ flaggedCount win →
        atar_window_step denoise win = win.map (atar_denoise_window denoise)) ∧
    (flaggedCount win < (⌊(8 / 10 : ℚ) * win.length⌋).toNat →
        atar_window_step denoise win = win) := by
  constructor <;> intro h <;>
    refine Eq.trans
      (show atar_window_step denoise win =
        (if (⌊(8 / 10 : ℚ) * win.length⌋).toNat ≤ countTrue (win.map channel_flagged) then
          win.map (atar_denoise_window denoise)
        else win) from rfl) ?_ <;>
    rw [countTrue_map_flagged]
  · rw [if_pos h]
  · rw [if_neg (not_le.2 h)]

/-- A 19-channel, 1-sample window with exactly 15 flagged channels
(sample 1 V = 10⁶ µV > 100 µV) and 4 unflagged ones. -/
def win19 : List (List ℚ) :=
  [[1], [1], [1], [1], [1], [1], [1], [1], [1], [1], [1], [1], [1], [1], [1],
   [0], [0], [0], [0]]

/-- A 19-channel window with 14 flagged channels — below even the code's
floor threshold of 15. -/
def win19b : List (List ℚ) :=
  [[1], [1], [1], [1], [1], [1], [1], [1], [1], [1], [1], [1], [1], [1], [0],
   [0], [0], [0], [0]]

theorem channel_flagged_one : channel_flagged [(1 : ℚ)] = true := by
  unfold channel_flagged maxAbs qmax
  norm_num

theorem channel_flagged_zero : channel_flagged [(0 : ℚ)] = false := by
  unfold channel_flagged maxAbs qmax
  norm_num

theorem flaggedCount_win19 : flaggedCount win19 = 15 := by
  unfold flaggedCount win19
  simp [List.filter_cons, channel_flagged_one, channel_flagged_zero]

theorem flaggedCount_win19b : flaggedCount win19b = 14 := by
  unfold flaggedCount win19b
  simp [List.filter_cons, channel_flagged_one, channel_flagged_zero]

theorem floor_quorum_19 : (⌊(8 / 10 : ℚ) * (19 : ℕ)⌋).toNat = 15 := by
  have h15 : ⌊(8 / 10 : ℚ) * (19 : ℕ)⌋ = 15 := by norm_num
  rw [h15]
  rfl

/-- Witness for C3 (amended): with 15 of 19 channels flagged the window
is denoised on all 19 channels; with 14 of 19 it is left untouched. -/
theorem atar_window_quorum_witness :
    ((⌊(8 / 10 : ℚ) * win19.length⌋).toNat ≤ flaggedCount win19 ∧
      atar_window_step (fun _ => []) win19 = win19.map (atar_denoise_window (fun _ => []))) ∧
    (flaggedCount win19b < (⌊(8 / 10 : ℚ) * win19b.length⌋).toNat ∧
      atar_window_step (fun _ => []) win19b = win19b) := by
  have h19 : win19.length = 19 := by unfold win19; rfl
  have h19b : win19b.length = 19 := by unfold win19b; rfl
  have ha : (⌊(8 / 10 : ℚ) * win19.length⌋).toNat ≤ flaggedCount win19 := by
    rw [flaggedCount_win19, h19]
    exact le_of_eq floor_quorum_19
  have hb : flaggedCount win19b < (⌊(8 / 10 : ℚ) * win19b.length⌋).toNat := by
    rw [flaggedCount_win19b, h19b, floor_quorum_19]
    norm_num
  exact ⟨⟨ha, (atar_window_quorum (fun _ => []) win19).1 ha⟩,
         ⟨hb, (atar_window_quorum (fun _ => []) win19b).2 hb⟩⟩

/-- **C3 counterexample.** With 19 channels and only 15 flagged — fewer
than `ceil(0.8 * 19) = 16` — the code still treats the window as a
global artifact window and replaces every channel by the denoiser's
output (here visibly different from the input), refuting the claimed
`ceil` quorum. -/
theorem atar_window_quorum_counterexample :
    flaggedCount win19 = 15 ∧
    win19.length = 19 ∧
    flaggedCount win19 < Nat.ceil ((8 / 10 : ℚ) * 19) ∧
    atar_window_step (fun _ => []) win19 =
      win19.map (atar_denoise_window (fun _ => [])) ∧
    atar_window_step (fun _ => []) win19 ≠ win19 := by
  have h19 : win19.length = 19 := by unfold win19; rfl
  have ha : (⌊(8 / 10 : ℚ) * win19.length⌋).toNat ≤ flaggedCount win19 := by
    rw [flaggedCount_win19, h19]
    exact le_of_eq floor_quorum_19
  have hstep : atar_window_step (fun _ => []) win19 =
      win19.map (atar_denoise_window (fun _ => [])) := by
    refine Eq.trans
      (show atar_window_step (fun _ => []) win19 =
        (if (⌊(8 / 10 : ℚ) * win19.length⌋).toNat ≤ countTrue (win19.map channel_flagged) then
          win19.map (atar_denoise_window (fun _ => []))
        else win19) from rfl) ?_
    rw [countTrue_map_flagged, if_pos ha]
  refine ⟨flaggedCount_win19, h19, ?_, hstep, ?_⟩
  · rw [flaggedCount_win19]
    have : Nat.ceil ((8 / 10 : ℚ) * 19) = 16 := by
      rw [Nat.ceil_eq_iff (by norm_num)]
      norm_num
    omega
  · rw [hstep]
    intro heq
    have := congrArg (fun l => (l.getD 0 []).length) heq
    simp [win19, atar_denoise_window] at this

/-! ### Claims about the Aggregate Store -/

theorem lookup_cons_self (k : String) (g0 : PatientGroup) (rest : List (String × PatientGroup)) :
    List.lookup k ((k, g0) :: rest) = some g0 := by
  simp [List.lookup]

theorem lookup_cons_ne (k pid : String) (g0 : PatientGroup) (rest : List (String × PatientGroup))
    (h : (pid == k) = false) :
    List.lookup pid ((k, g0) :: rest) = List.lookup pid rest := by
  simp [List.lookup, h]

theorem lookup_map_update (groups : List (String × PatientGroup)) (pid : String)
    (f : PatientGroup → PatientGroup) :
    (groups.map (fun kg => if kg.1 = pid then (kg.1, f kg.2) else kg)).lookup pid =
      (groups.lookup pid).map f := by
  induction groups with
  | nil => rfl
  | cons kg rest ih =>
    obtain ⟨k, g⟩ := kg
    simp only [List.map_cons]
    by_cases hk : k = pid
    · subst hk
      rw [if_pos rfl, lookup_cons_self, lookup_cons_self]
      rfl
    · have hbeq : (pid == k) = false := by simp [Ne.symm hk]
      rw [if_neg hk, lookup_cons_ne _ _ _ _ hbeq, lookup_cons_ne _ _ _ _ hbeq, ih]

theorem lookup_append_single (groups : List (String × PatientGroup)) (pid : String)
    (g : PatientGroup) (h : groups.lookup pid = none) :
    (groups ++ [(pid, g)]).lookup pid = some g := by
  induction groups with
  | nil => simp [List.lookup]
  | cons kg rest ih =>
    obtain ⟨k, g0⟩ := kg
    rw [List.cons_append]
    cases hbeq : (pid == k) with
    | true =>
      exfalso
      have hpk : pid = k := by simpa using hbeq
      subst hpk
      rw [lookup_cons_self] at h
      exact Option.noConfusion h
    | false =>
      rw [lookup_cons_ne _ _ _ _ hbeq] at h
      rw [lookup_cons_ne _ _ _ _ hbeq]
      exact ih h

/-- A first append for `patient_id` creates its group with the incoming
blocks and a singleton provenance array. -/
theorem add_subblocks_lookup_none (file : H5File) (pid : String)
    (d : List (List (List ℚ))) (gender age_cat src : String)
    (ga : List (String × String)) (h : file.groups.lookup pid = none) :
    (add_subblocks_to_hdf5 file pid d gender age_cat src ga).groups.lookup pid =
      some ⟨d, gender, age_cat, [src]⟩ := by
  unfold add_subblocks_to_hdf5
  rw [h]
  exact lookup_append_single _ _ _ h

/-- A later append for `patient_id` concatenates the blocks at the tail
and appends the source file to the provenance array only when absent. -/
theorem add_subblocks_lookup_some (file : H5File) (pid : String)
    (d : List (List (List ℚ))) (gender age_cat src : String)
    (ga : List (String × String)) (gr : PatientGroup)
    (h : file.groups.lookup pid = some gr) :
    (add_subblocks_to_hdf5 file pid d gender age_cat src ga).groups.lookup pid =
      some ⟨gr.pdata ++ d, gr.gender, gr.age_cat,
            if gr.source_files.contains src then gr.source_files
            else gr.source_files ++ [src]⟩ := by
  unfold add_subblocks_to_hdf5
  rw [h]
  have hmap := lookup_map_update file.groups pid
    (fun g => ⟨g.pdata ++ d, g.gender, g.age_cat,
      if g.source_files.contains src then g.source_files
      else g.source_files ++ [src]⟩)
  rw [h] at hmap
  exact hmap

theorem dataOf_lookup_some {file : H5File} {pid : String} {gr : PatientGroup}
    (h : file.groups.lookup pid = some gr) : dataOf file pid = gr.pdata := by
  unfold dataOf
  rw [h]
  rfl

theorem dataOf_lookup_none {file : H5File} {pid : String}
    (h : file.groups.lookup pid = none) : dataOf file pid = [] := by
  unfold dataOf
  rw [h]
  rfl

theorem sourcesOf_lookup_some {file : H5File} {pid : String} {gr : PatientGroup}
    (h : file.groups.lookup pid = some gr) : sourcesOf file pid = gr.source_files := by
  unfold sourcesOf
  rw [h]
  rfl

theorem sourcesOf_lookup_none {file : H5File} {pid : String}
    (h : file.groups.lookup pid = none) : sourcesOf file pid = [] := by
  unfold sourcesOf
  rw [h]
  rfl

/-- **C5 (amended).** Appending the same blocks twice for the same
recording id and source file grows the block array by `len(blocks)` rows
at the tail on each call (`2 * len(blocks)` over the pair, earlier rows
preserved in order), while the provenance array grows by exactly one
entry when the source file was not already recorded before the first
call, and by zero entries when it was — it is never added twice. -/
theorem aggregate_store_double_append (file : H5File) (pid : String)
    (d : List (List (List ℚ))) (gender age_cat src : String)
    (ga1 ga2 : List (String × String)) :
    dataOf (add_subblocks_to_hdf5 file pid d gender age_cat src ga1) pid =
        dataOf file pid ++ d ∧
    dataOf (add_subblocks_to_hdf5 (add_subblocks_to_hdf5 file pid d gender age_cat src ga1)
        pid d gender age_cat src ga2) pid = dataOf file pid ++ d ++ d ∧
    sourcesOf (add_subblocks_to_hdf5 file pid d gender age_cat src ga1) pid =
        (if (sourcesOf file pid).contains src then sourcesOf file pid
         else sourcesOf file pid ++ [src]) ∧
    sourcesOf (add_subblocks_to_hdf5 (add_subblocks_to_hdf5 file pid d gender age_cat src ga1)
        pid d gender age_cat src ga2) pid =
        (if (sourcesOf file pid).contains src then sourcesOf file pid
         else sourcesOf file pid ++ [src]) := by
  cases h : file.groups.lookup pid with
  | none =>
    have h1 := add_subblocks_lookup_none file pid d gender age_cat src ga1 h
    have h2 := add_subblocks_lookup_some _ pid d gender age_cat src ga2 _ h1
    have hsrc : (([src] : List String).contains src) = true := by simp
    rw [dataOf_lookup_some h1, dataOf_lookup_some h2, dataOf_lookup_none h,
      sourcesOf_lookup_some h1, sourcesOf_lookup_some h2, sourcesOf_lookup_none h]
    simp [hsrc]
  | some gr =>
    have h1 := add_subblocks_lookup_some file pid d gender age_cat src ga1 _ h
    have h2 := add_subblocks_lookup_some _ pid d gender age_cat src ga2 _ h1
    rw [dataOf_lookup_some h1, dataOf_lookup_some h2, dataOf_lookup_some h,
      sourcesOf_lookup_some h1, sourcesOf_lookup_some h2, sourcesOf_lookup_some h]
    by_cases hc : gr.source_files.contains src = true
    · have hmem : src ∈ gr.source_files := by simpa using hc
      simp [hc, hmem]
    · have hmem : src ∉ gr.source_files := by simpa using hc
      have hb : (gr.source_files ++ [src]).contains src = true := by simp
      simp [hc, hb, hmem]

/-- **C5 counterexample.** Starting from an empty store, three appends
with the same recording id, blocks and source file: over the *pair* of
calls 2 and 3 the block array grows by 2 rows but the provenance array
grows by zero entries, not one — the claim's "exactly one entry over
the two calls" fails whenever the source file is already recorded
before the pair. -/
theorem aggregate_store_counterexample :
    sourcesOf (add_subblocks_to_hdf5 (add_subblocks_to_hdf5 (add_subblocks_to_hdf5
        ⟨[], []⟩ "p" [[[1]]] "M" "a" "s" [])
        "p" [[[1]]] "M" "a" "s" [])
        "p" [[[1]]] "M" "a" "s" []) "p" = ["s"] ∧
    sourcesOf (add_subblocks_to_hdf5 ⟨[], []⟩ "p" [[[1]]] "M" "a" "s" []) "p" = ["s"] ∧
    (dataOf (add_subblocks_to_hdf5 (add_subblocks_to_hdf5 (add_subblocks_to_hdf5
        ⟨[], []⟩ "p" [[[1]]] "M" "a" "s" [])
        "p" [[[1]]] "M" "a" "s" [])
        "p" [[[1]]] "M" "a" "s" []) "p").length = 3 ∧
    (dataOf (add_subblocks_to_hdf5 ⟨[], []⟩ "p" [[[1]]] "M" "a" "s" []) "p").length = 1 := by
  have e0 : (H5File.mk [] []).groups.lookup "p" = none := rfl
  have hs : ((["s"] : List String).contains "s") = true := by simp
  have h1 := add_subblocks_lookup_none ⟨[], []⟩ "p" [[[1]]] "M" "a" "s" [] e0
  have h2 := add_subblocks_lookup_some _ "p" [[[1]]] "M" "a" "s" [] _ h1
  simp at h2
  have h3 := add_subblocks_lookup_some _ "p" [[[1]]] "M" "a" "s" [] _ h2
  simp at h3
  refine ⟨?_, ?_, ?_, ?_⟩
  · rw [sourcesOf_lookup_some h3]
  · rw [sourcesOf_lookup_some h1]
  · rw [dataOf_lookup_some h3]
    simp
  · rw [dataOf_lookup_some h1]
    rfl

/-! ### Claims about the Annotation Segmenter -/

/-- Total duration of a segment list. -/
def sumDur (segs : List Seg) : ℚ := (segs.map (fun s => s.2.2)).sum

/-- `blocks_scan` always emits at least one segment, and the first one
starts at `start` with label `label`. -/
theorem blocks_scan_head :
    ∀ (anns : List Ann) (label : String) (start T : ℚ), ∃ dur tail,
      blocks_scan label start anns T = (label, start, dur) :: tail := by
  intro anns
  induction anns with
  | nil => intro label start T; exact ⟨T - start, [], rfl⟩
  | cons b rest ih =>
    intro label start T
    cases h : clean_event_name b.desc with
    | none =>
      obtain ⟨dur, tail, heq⟩ := ih label start T
      refine ⟨dur, tail, ?_⟩
      rw [blocks_scan, h]
      exact heq
    | some l2 =>
      refine ⟨b.onset - start, blocks_scan l2 b.onset rest T, ?_⟩
      rw [blocks_scan, h]

/-- Contiguity: inside one `blocks_scan` run every segment ends exactly
where the next one starts. -/
theorem blocks_scan_chain :
    ∀ (anns : List Ann) (label : String) (start T : ℚ),
      List.Chain' (fun s t : Seg => s.2.1 + s.2.2 = t.2.1)
        (blocks_scan label start anns T) := by
  intro anns
  induction anns with
  | nil => intro label start T; simp [blocks_scan]
  | cons b rest ih =>
    intro label start T
    cases h : clean_event_name b.desc with
    | none =>
      rw [blocks_scan, h]
      exact ih label start T
    | some l2 =>
      simp only [blocks_scan, h]
      obtain ⟨dur, tail, heq⟩ := blocks_scan_head rest l2 b.onset T
      rw [heq]
      refine List.Chain'.cons ?_ ?_
      · show start + (b.onset - start) = b.onset
        ring
      · rw [← heq]
        exact ih l2 b.onset T

/-- Telescoping: one `blocks_scan` run covers exactly `[start, T]`. -/
theorem blocks_scan_sum :
    ∀ (anns : List Ann) (label : String) (start T : ℚ),
      sumDur (blocks_scan label start anns T) = T - start := by
  intro anns
  induction anns with
  | nil => intro label start T; simp [blocks_scan, sumDur]
  | cons b rest ih =>
    intro label start T
    cases h : clean_event_name b.desc with
    | none =>
      rw [blocks_scan, h]
      exact ih label start T
    | some l2 =>
      rw [blocks_scan, h]
      unfold sumDur at ih ⊢
      rw [List.map_cons, List.sum_cons, ih l2 b.onset T]
      ring

/-- With onsets sorted, within bounds, and at or after `start`, every
emitted duration is non-negative. -/
theorem blocks_scan_nonneg :
    ∀ (anns : List Ann) (label : String) (start T : ℚ),
      (∀ b ∈ anns, start ≤ b.onset) →
      anns.Pairwise (fun x y : Ann => x.onset ≤ y.onset) →
      (∀ b ∈ anns, b.onset ≤ T) →
      start ≤ T →
      ∀ s ∈ blocks_scan label start anns T, 0 ≤ s.2.2 := by
  intro anns
  induction anns with
  | nil =>
    intro label start T _ _ _ h4 s hs
    rw [blocks_scan] at hs
    rcases List.mem_singleton.1 hs with rfl
    show (0 : ℚ) ≤ T - start
    linarith
  | cons b rest ih =>
    intro label start T h1 h2 h3 h4 s hs
    cases h : clean_event_name b.desc with
    | none =>
      rw [blocks_scan, h] at hs
      exact ih label start T (fun c hc => h1 c (List.mem_cons_of_mem _ hc)) h2.of_cons
        (fun c hc => h3 c (List.mem_cons_of_mem _ hc)) h4 s hs
    | some l2 =>
      rw [blocks_scan, h] at hs
      rcases List.mem_cons.1 hs with rfl | hs
      · show (0 : ℚ) ≤ b.onset - start
        have := h1 b (List.mem_cons_self _ _)
        linarith
      · exact ih l2 b.onset T (fun c hc => List.rel_of_pairwise_cons h2 hc) h2.of_cons
          (fun c hc => h3 c (List.mem_cons_of_mem _ hc)) (h3 b (List.mem_cons_self _ _)) s hs

/-- With sorted onsets the emitted segments are ordered by start time. -/
theorem blocks_scan_sorted :
    ∀ (anns : List Ann) (label : String) (start T : ℚ),
      (∀ b ∈ anns, start ≤ b.onset) →
      anns.Pairwise (fun x y : Ann => x.onset ≤ y.onset) →
      List.Chain' (fun s t : Seg => s.2.1 ≤ t.2.1) (blocks_scan label start anns T) := by
  intro anns
  induction anns with
  | nil => intro label start T _ _; simp [blocks_scan]
  | cons b rest ih =>
    intro label start T h1 h2
    cases h : clean_event_name b.desc with
    | none =>
      rw [blocks_scan, h]
      exact ih label start T (fun c hc => h1 c (List.mem_cons_of_mem _ hc)) h2.of_cons
    | some l2 =>
      simp only [blocks_scan, h]
      obtain ⟨dur, tail, heq⟩ := blocks_scan_head rest l2 b.onset T
      rw [heq]
      refine List.Chain'.cons ?_ ?_
      · show start ≤ b.onset
        exact h1 b (List.mem_cons_self _ _)
      · rw [← heq]
        exact ih l2 b.onset T (fun c hc => List.rel_of_pairwise_cons h2 hc) h2.of_cons

/-- **C1 (amended).** For annotation lists with sorted onsets bounded by
the cropped duration, the segmenter's output is contiguous (each
segment's start plus duration equals the next segment's start, hence
non-overlapping), ordered by start time, with non-negative durations —
but the sum of all durations equals the cropped duration minus the
*first non-excluded annotation's onset* (the first segment's start), not
the full cropped duration. -/
theorem annotation_segmenter_props :
    ∀ (anns : List Ann) (T : ℚ),
      anns.Pairwise (fun x y : Ann => x.onset ≤ y.onset) →
      (∀ a ∈ anns, a.onset ≤ T) →
      List.Chain' (fun s t : Seg => s.2.1 + s.2.2 = t.2.1) (create_block_csv anns T) ∧
      List.Chain' (fun s t : Seg => s.2.1 ≤ t.2.1) (create_block_csv anns T) ∧
      (∀ s ∈ create_block_csv anns T, 0 ≤ s.2.2) ∧
      ∀ s0, (create_block_csv anns T).head? = some s0 →
        sumDur (create_block_csv anns T) = T - s0.2.1 := by
  intro anns
  induction anns with
  | nil =>
    intro T _ _
    simp [create_block_csv, sumDur]
  | cons a rest ih =>
    intro T hsort hbound
    cases h : clean_event_name a.desc with
    | none =>
      have hrec := ih T hsort.of_cons (fun c hc => hbound c (List.mem_cons_of_mem _ hc))
      rw [create_block_csv, h]
      exact hrec
    | some label =>
      simp only [create_block_csv, h]
      have h1 : ∀ b ∈ rest, a.onset ≤ b.onset := fun b hb => List.rel_of_pairwise_cons hsort hb
      have h4 : a.onset ≤ T := hbound a (List.mem_cons_self _ _)
      refine ⟨blocks_scan_chain rest label a.onset T,
        blocks_scan_sorted rest label a.onset T h1 hsort.of_cons,
        blocks_scan_nonneg rest label a.onset T h1 hsort.of_cons
          (fun c hc => hbound c (List.mem_cons_of_mem _ hc)) h4, ?_⟩
      intro s0 hs0
      obtain ⟨dur, tail, heq⟩ := blocks_scan_head rest label a.onset T
      rw [heq, List.head?_cons] at hs0
      obtain rfl : (label, a.onset, dur) = s0 := Option.some.inj hs0
      rw [blocks_scan_sum rest label a.onset T]

/-- Witness for C1 (amended) on a one-annotation recording. -/
theorem annotation_segmenter_props_witness :
    ([⟨0, "Фоновая запись"⟩] : List Ann).Pairwise (fun x y : Ann => x.onset ≤ y.onset) ∧
    (∀ a ∈ ([⟨0, "Фоновая запись"⟩] : List Ann), a.onset ≤ 60) ∧
    (List.Chain' (fun s t : Seg => s.2.1 + s.2.2 = t.2.1)
        (create_block_csv [⟨0, "Фоновая запись"⟩] 60) ∧
      List.Chain' (fun s t : Seg => s.2.1 ≤ t.2.1)
        (create_block_csv [⟨0, "Фоновая запись"⟩] 60) ∧
      (∀ s ∈ create_block_csv [⟨0, "Фоновая запись"⟩] 60, 0 ≤ s.2.2) ∧
      ∀ s0, (create_block_csv [⟨0, "Фоновая запись"⟩] 60).head? = some s0 →
        sumDur (create_block_csv [⟨0, "Фоновая запись"⟩] 60) = 60 - s0.2.1) := by
  have hb : ∀ a ∈ ([⟨0, "Фоновая запись"⟩] : List Ann), a.onset ≤ (60 : ℚ) := by
    intro a ha
    rw [List.mem_singleton] at ha
    subst ha
    norm_num
  exact ⟨List.pairwise_singleton _ _, hb,
    annotation_segmenter_props [⟨0, "Фоновая запись"⟩] 60 (List.pairwise_singleton _ _) hb⟩

/-- **C1 counterexample.** One annotation at t = 10 s over a 60 s
recording: the single emitted segment covers `[10, 60]`, so the summed
duration is 50 s — short of the cropped duration by 10 s, far more than
one sample at any realistic sample rate (e.g. 2 ms at 500 Hz). -/
theorem annotation_coverage_counterexample :
    create_block_csv [⟨10, "Бодрствование"⟩] 60 = [("Awake", 10, 50)] ∧
    sumDur (create_block_csv [⟨10, "Бодрствование"⟩] 60) = 50 ∧
    (60 : ℚ) - sumDur (create_block_csv [⟨10, "Бодрствование"⟩] 60) = 10 ∧
    (1 / 500 : ℚ) < 10 := by
  have h : clean_event_name "Бодрствование" = some "Awake" := by decide
  have he : create_block_csv [⟨10, "Бодрствование"⟩] 60 = [("Awake", 10, 50)] := by
    simp only [create_block_csv, blocks_scan, h]
    norm_num
  refine ⟨he, ?_, ?_, by norm_num⟩
  · rw [he]
    norm_num [sumDur]
  · rw [he]
    norm_num [sumDur]

/-- **C4 (amended).** On the spec's scenario list the segmenter emits
*three* segments, `[("Baseline", 0, 30), ("", 30, 1), ("EyesOpen", 31,
29)]`: the annotation `"[Artifact]"` is not excluded — its canonical
label is the empty string and it both ends the Baseline segment at 30 s
and starts its own 1-second segment — while `"Разрыв записи"` is
excluded and neither starts nor ends a segment. -/
theorem scenario_segments :
    create_block_csv
      [⟨0, "Фоновая запись"⟩, ⟨30, "[Artifact]"⟩, ⟨31, "Открывание глаз"⟩,
       ⟨60, "Разрыв записи"⟩] 60 =
      [("Baseline", 0, 30), ("", 30, 1), ("EyesOpen", 31, 29)] := by
  have h1 : clean_event_name "Фоновая запись" = some "Baseline" := by decide
  have h2 : clean_event_name "[Artifact]" = some "" := by decide
  have h3 : clean_event_name "Открывание глаз" = some "EyesOpen" := by decide
  have h4 : clean_event_name "Разрыв записи" = none := by decide
  simp only [create_block_csv, blocks_scan, h1, h2, h3, h4]
  norm_num

/-- **C4 counterexample.** The claimed two-segment output is not what
the code produces on the scenario list: the code emits three segments
(`"[Artifact]"` is not excluded). -/
theorem scenario_counterexample :
    create_block_csv
      [⟨0, "Фоновая запись"⟩, ⟨30, "[Artifact]"⟩, ⟨31, "Открывание глаз"⟩,
       ⟨60, "Разрыв записи"⟩] 60 ≠
      [("Baseline", 0, 31), ("EyesOpen", 31, 29)] := by
  have h1 : clean_event_name "Фоновая запись" = some "Baseline" := by decide
  have h2 : clean_event_name "[Artifact]" = some "" := by decide
  have h3 : clean_event_name "Открывание глаз" = some "EyesOpen" := by decide
  have h4 : clean_event_name "Разрыв записи" = none := by decide
  have he : create_block_csv
      [⟨0, "Фоновая запись"⟩, ⟨30, "[Artifact]"⟩, ⟨31, "Открывание глаз"⟩,
       ⟨60, "Разрыв записи"⟩] 60 =
      [("Baseline", 0, 30), ("", 30, 1), ("EyesOpen", 31, 29)] := by
    simp only [create_block_csv, blocks_scan, h1, h2, h3, h4]
    norm_num
  rw [he]
  intro heq
  have hlen := congrArg List.length heq
  simp at hlen

end EDFProc
